import Mathlib

/-!
Verification of the Simple Python Fixed-Point Module (SPFPM),
file src/FixedPoint.py, against its natural-language specification.

The embedding models Python arbitrary-precision integers as Lean Int.
Python bitwise and shift operators on negative integers act on the
conceptually infinite two complement representation; these agree with
Int.lor, multiplication by a power of two, and Int.shiftRight
(arithmetic shift, i.e. floor division by a power of two).
Fallible code (constructors running the overflow validator, operations
that can raise) is modelled with Except.
-/

/-- Python left shift `v << k` on arbitrary-precision integers: exact
multiplication by `2 ^ k`. -/
def pyShl (v : Int) (k : Nat) : Int := v * 2 ^ k

/-- Python right shift `v >> k` on arbitrary-precision integers: arithmetic
shift, which Lean provides as `Int.shiftRight`. -/
def pyShr (v : Int) (k : Nat) : Int := Int.shiftRight v k

/-- Python bitwise or on arbitrary-precision two complement integers,
which Lean provides as `Int.lor`. -/
def pyOr (a b : Int) : Int := Int.lor a b

/-- Python floor division `a // b`, which Lean provides as `Int.fdiv`. -/
def pyFloorDiv (a b : Int) : Int := Int.fdiv a b

/-- Exception kinds that the modelled code can raise.  The first four are
the library exception classes of src/FixedPoint.py; `ZeroDivisionError`
and `NameError` are host (Python runtime) faults, not library kinds. -/
inductive PyError where
  | FXoverflowError
  | FXdomainError
  | FXfamilyError
  | ZeroDivisionError
  | NameError
deriving DecidableEq, Repr

/-- Descriptor of the accuracy of a set of fixed-point numbers
(class FXfamily, src/FixedPoint.py lines 92-304).  `fraction_bits` is the
number of bits right of the binary point (the constructor argument
`n_bits`, default 64, always at least 1 since the constructor evaluates
`1 << (n_bits - 1)`); `integer_bits` is the optional bit count left of
the binary point including sign (`n_intbits`). -/
structure FXfamily where
  fraction_bits : Nat
  integer_bits : Option Nat
deriving DecidableEq, Repr

namespace FXfamily

/-- Field `self.scale = 1 << n_bits` of FXfamily.__init__. -/
def scale (f : FXfamily) : Int := pyShl 1 f.fraction_bits

/-- Field `self._roundup = 1 << (n_bits - 1)` of FXfamily.__init__. -/
def roundup (f : FXfamily) : Int := pyShl 1 (f.fraction_bits - 1)

/-- Closure `validate` built by FXfamily.__init__ (lines 110-117): when
`integer_bits` is set, raise FXoverflowError for a scaled value outside
`[-thresh, thresh)` with `thresh = 1 << (n_bits + n_intbits - 1)`; when
`integer_bits` is absent the `try` block fails (shift by None) and the
validator is a no-op. -/
def validate (f : FXfamily) (scaledval : Int) : Except PyError Unit :=
  match f.integer_bits with
  | some n_intbits =>
      let thresh : Int := pyShl 1 (f.fraction_bits + n_intbits - 1)
      if scaledval ≥ thresh ∨ scaledval < -thresh then
        Except.error PyError.FXoverflowError
      else
        Except.ok ()
  | none => Except.ok ()

/-- Method FXfamily.convert (lines 271-285): rebase a scaled value coming
from family `other` onto the fraction-bit count of `self`. -/
def convert (self other : FXfamily) (other_val : Int) : Int :=
  let bit_inc : Int := (self.fraction_bits : Int) - (other.fraction_bits : Int)
  if bit_inc = 0 then
    other_val
  else if bit_inc > 0 then
    let new_val := pyShl other_val bit_inc.toNat
    if other_val > 0 then
      pyOr new_val (pyShl 1 (bit_inc.toNat - 1))
    else
      pyOr new_val (pyShl 1 (bit_inc.toNat - 1) - 1)
  else
    pyShr other_val (-bit_inc).toNat

/-- Loop `while nb > 0: augbits += 1; nb >>= 1` of FXfamily.augment
(lines 299-301): the number of iterations, i.e. the binary length of
`nb`. -/
def augmentLoop : Nat → Nat
  | 0 => 0
  | nb + 1 => augmentLoop ((nb + 1) / 2) + 1
decreasing_by exact Nat.div_lt_self (Nat.succ_pos nb) (by omega)

/-- Method FXfamily.augment (lines 287-303): a new family with
`4 + (binary length of nb)` extra fraction bits, where `nb` is the
supplied operation count, defaulting to the fraction-bit count. -/
def augment (f : FXfamily) (opcount : Option Nat) : FXfamily :=
  let nb := match opcount with
            | some c => c
            | none => f.fraction_bits
  { fraction_bits := f.fraction_bits + (4 + augmentLoop nb),
    integer_bits := none }

end FXfamily

/-- Representation of a binary fixed-point real number
(class FXnum, src/FixedPoint.py lines 330-935). -/
structure FXnum where
  family : FXfamily
  scaledval : Int
deriving DecidableEq, Repr

namespace FXnum

/-- Class method FXnum._rawbuild (lines 354-361): run the family
validator on the scaled value, then assemble the number directly. -/
def rawbuild (fam : FXfamily) (sv : Int) : Except PyError FXnum := do
  fam.validate sv
  return { family := fam, scaledval := sv }

/-- Constructor FXnum.__init__ taking the `scaled_value` keyword
(lines 335-352): store the scaled value, then validate it. -/
def fromScaled (fam : FXfamily) (sv : Int) : Except PyError FXnum := do
  fam.validate sv
  return { family := fam, scaledval := sv }

/-- Constructor FXnum.__init__ on a Python int `val` (lines 335-352):
the scaled value is `int(round(val * family.scale))`, which for an
integer argument is exactly `val * scale`; then validate. -/
def fromInt (val : Int) (fam : FXfamily) : Except PyError FXnum := do
  let sv := val * fam.scale
  fam.validate sv
  return { family := fam, scaledval := sv }

/-- Constructor FXnum.__init__ on another FXnum `val` (lines 335-352):
the scaled value is `family.convert(val.family, val.scaledval)`; then
validate. -/
def fromFX (val : FXnum) (fam : FXfamily) : Except PyError FXnum := do
  let sv := fam.convert val.family val.scaledval
  fam.validate sv
  return { family := fam, scaledval := sv }

/-- Exact real value of a fixed-point number, `scaledval / 2 ^ fraction_bits`,
as a rational. -/
def value (a : FXnum) : ℚ :=
  (a.scaledval : ℚ) / ((2 : ℚ) ^ a.family.fraction_bits)

/-- Method FXnum.__add__ (lines 463-467): operands must share a family
(method _CastOrFail_ raises FXfamilyError otherwise), then the scaled
values are added exactly and the result is rebuilt through _rawbuild. -/
def add (a b : FXnum) : Except PyError FXnum :=
  if a.family = b.family then
    rawbuild a.family (a.scaledval + b.scaledval)
  else
    Except.error PyError.FXfamilyError

/-- Method FXnum.__sub__ (lines 472-476). -/
def sub (a b : FXnum) : Except PyError FXnum :=
  if a.family = b.family then
    rawbuild a.family (a.scaledval - b.scaledval)
  else
    Except.error PyError.FXfamilyError

/-- Method FXnum.__neg__ (lines 415-417). -/
def neg (a : FXnum) : Except PyError FXnum :=
  rawbuild a.family (-a.scaledval)

/-- Method FXnum.__mul__ (lines 481-487): scaled value
`(a.scaledval * b.scaledval + _roundup) // scale`. -/
def mul (a b : FXnum) : Except PyError FXnum :=
  if a.family = b.family then
    rawbuild a.family
      (pyFloorDiv (a.scaledval * b.scaledval + a.family.roundup) a.family.scale)
  else
    Except.error PyError.FXfamilyError

/-- Method FXnum.__lshift__ (lines 492-494). -/
def lshift (a : FXnum) (shift : Nat) : Except PyError FXnum :=
  rawbuild a.family (pyShl a.scaledval shift)

/-- Method FXnum.__rshift__ (lines 496-498). -/
def rshift (a : FXnum) (shift : Nat) : Except PyError FXnum :=
  rawbuild a.family (pyShr a.scaledval shift)

/-- Method FXnum.__truediv__ (lines 500-507): scaled value
`(a.scaledval * scale + _roundup) // b.scaledval`.  The Python floor
division raises the host ZeroDivisionError when the divisor is zero,
before the result is rebuilt. -/
def truediv (a b : FXnum) : Except PyError FXnum :=
  if a.family = b.family then
    if b.scaledval = 0 then
      Except.error PyError.ZeroDivisionError
    else
      rawbuild a.family
        (pyFloorDiv (a.scaledval * a.family.scale + a.family.roundup) b.scaledval)
  else
    Except.error PyError.FXfamilyError

end FXnum

namespace FXfamily

/-- Property FXfamily.unity (lines 212-215): `FXnum(1, self)`. -/
def unity (f : FXfamily) : Except PyError FXnum := FXnum.fromInt 1 f

/-- Property FXfamily.zero (lines 217-220): `FXnum(0, self)`. -/
def zero (f : FXfamily) : Except PyError FXnum := FXnum.fromInt 0 f

/-- Effective integer-bit count used by FXfamily.from2c: the override
when supplied, else the family count. -/
def effIntBits (f : FXfamily) (n_intbits : Option Nat) : Option Nat :=
  match n_intbits with
  | some b => some b
  | none => f.integer_bits

/-- Method FXfamily.from2c (lines 247-269): decode a two complement bit
pattern.  When neither the override nor the family carries an
integer-bit count, `scale << None` raises and is converted to
FXfamilyError; a pattern outside `[0, m)` raises FXdomainError; the
decoded scaled value is finally passed through FXnum._rawbuild, hence
through the family validator. -/
def from2c (f : FXfamily) (n : Int) (n_intbits : Option Nat) :
    Except PyError FXnum :=
  match f.effIntBits n_intbits with
  | none => Except.error PyError.FXfamilyError
  | some ib =>
      let m : Int := pyShl f.scale ib
      if n < 0 ∨ n ≥ m then
        Except.error PyError.FXdomainError
      else
        let scaledval := if n < pyShr m 1 then n else n - m
        FXnum.rawbuild f scaledval

end FXfamily

/-!
Model of FXfamily.__eq__ and FXfamily.__ne__ (src/FixedPoint.py lines
229-241).  Their AttributeError fallback branches execute `return false`
and `return true`: evaluations of bare names that are resolved against
the Python 3 builtin scope at run time.
-/

/-- Names bound in the builtin scope of Python 3 that are relevant here:
the boolean constants are spelled `True` and `False`; the lowercase
spellings `false` and `true` are unbound. -/
def py3Builtins : List String := ["True", "False", "None", "AttributeError"]

/-- Evaluation of a bare Python name: a name bound in the builtin scope
yields a value, an unbound one raises NameError at run time. -/
def evalPyName (s : String) : Except PyError String :=
  if s ∈ py3Builtins then Except.ok s else Except.error PyError.NameError

/-- Argument object handed to FXfamily.__eq__ or FXfamily.__ne__: either
an object carrying fraction_bits and integer_bits attributes, or one
lacking them, for which attribute access raises AttributeError. -/
inductive PyOperand where
  | famLike (fraction_bits : Nat) (integer_bits : Option Nat)
  | noAttrs
deriving DecidableEq, Repr

namespace FXfamily

/-- Method FXfamily.__eq__ (lines 229-234): compare the two attribute
pairs; on AttributeError the fallback `return false` evaluates the bare
name `false`. -/
def eqOp (self : FXfamily) : PyOperand → Except PyError Bool
  | PyOperand.famLike fb ib =>
      Except.ok (decide (self.fraction_bits = fb ∧ self.integer_bits = ib))
  | PyOperand.noAttrs =>
      match evalPyName "false" with
      | Except.error e => Except.error e
      | Except.ok v => Except.ok (v = "True")

/-- Method FXfamily.__ne__ (lines 236-241): compare the two attribute
pairs; on AttributeError the fallback `return true` evaluates the bare
name `true`. -/
def neOp (self : FXfamily) : PyOperand → Except PyError Bool
  | PyOperand.famLike fb ib =>
      Except.ok (decide (self.fraction_bits ≠ fb ∨ self.integer_bits ≠ ib))
  | PyOperand.noAttrs =>
      match evalPyName "true" with
      | Except.error e => Except.error e
      | Except.ok v => Except.ok (v = "True")

/-- Range predicate matching what the validator of a family accepts:
unbounded families accept everything; a family with integer bits accepts
exactly the asymmetric two complement range `[-thresh, thresh)`. -/
def inRange (f : FXfamily) (sv : Int) : Prop :=
  match f.integer_bits with
  | none => True
  | some ib =>
      -(2 ^ (f.fraction_bits + ib - 1)) ≤ sv ∧ sv < 2 ^ (f.fraction_bits + ib - 1)

end FXfamily

instance : ∀ (f : FXfamily) (sv : Int), Decidable (f.inRange sv) := fun f sv =>
  match f with
  | ⟨_, none⟩ => isTrue trivial
  | ⟨fb, some ib⟩ =>
      inferInstanceAs (Decidable (-(2 ^ (fb + ib - 1)) ≤ sv ∧ sv < 2 ^ (fb + ib - 1)))

/-!
Bit-level helper lemmas: bitwise or with disjoint low bits is addition,
and clearing bits from an all-ones low block is subtraction.  These let
the bitwise-or rounding bias of FXfamily.convert be read arithmetically.
-/

/-- Low bits of the complement block: for `b < 2 ^ d` the number
`2 ^ d - 1 - b` carries exactly the flipped low `d` bits of `b`. -/
theorem testBit_compl_sub (d : Nat) :
    ∀ b i, b < 2 ^ d → i < d → Nat.testBit (2 ^ d - 1 - b) i = !(Nat.testBit b i) := by
  induction d with
  | zero => intro b i _ hi; exact absurd hi (Nat.not_lt_zero i)
  | succ d ih =>
    intro b i hb hi
    have h2 : 2 ^ (d + 1) = 2 * 2 ^ d := by rw [Nat.pow_succ, Nat.mul_comm]
    have hp : 0 < 2 ^ d := Nat.pos_pow_of_pos d (by omega)
    cases i with
    | zero =>
      rw [Nat.testBit_zero, Nat.testBit_zero]
      rcases Nat.mod_two_eq_zero_or_one b with h | h
      · have hx : (2 ^ (d + 1) - 1 - b) % 2 = 1 := by omega
        simp [h, hx]
      · have hx : (2 ^ (d + 1) - 1 - b) % 2 = 0 := by omega
        simp [h, hx]
    | succ i =>
      rw [Nat.testBit_add_one, Nat.testBit_add_one]
      have hb2 : b / 2 < 2 ^ d := by omega
      have hdiv : (2 ^ (d + 1) - 1 - b) / 2 = 2 ^ d - 1 - b / 2 := by omega
      rw [hdiv]
      exact ih (b / 2) i hb2 (by omega)

/-- Bitwise or of a multiple of `2 ^ d` with a value below `2 ^ d` is
plain addition. -/
theorem lor_mul_pow_add (d a b : Nat) (hb : b < 2 ^ d) :
    (2 ^ d * a) ||| b = 2 ^ d * a + b := by
  apply Nat.eq_of_testBit_eq
  intro i
  have h0 : (0 : Nat) < 2 ^ d := Nat.pos_pow_of_pos d (by omega)
  have L : Nat.testBit (2 ^ d * a) i
      = if i < d then false else Nat.testBit a (i - d) := by
    have := Nat.testBit_mul_pow_two_add a (b := 0) (i := d) h0 i
    simpa using this
  rw [Nat.testBit_or, Nat.testBit_mul_pow_two_add a hb i, L]
  rcases Nat.lt_or_ge i d with hi | hi
  · simp [hi]
  · have hbi : b < 2 ^ i :=
      Nat.lt_of_lt_of_le hb (Nat.pow_le_pow_right (by omega) hi)
    simp [show ¬ i < d by omega, Nat.testBit_lt_two_pow hbi]

/-- Clearing the bits of `b < 2 ^ d` from a number whose low `d` bits are
all ones subtracts `b`. -/
theorem ldiff_mul_pow_add (d x b : Nat) (hb : b < 2 ^ d) :
    Nat.ldiff (2 ^ d * x + (2 ^ d - 1)) b = 2 ^ d * x + (2 ^ d - 1 - b) := by
  apply Nat.eq_of_testBit_eq
  intro i
  have h0 : (0 : Nat) < 2 ^ d := Nat.pos_pow_of_pos d (by omega)
  have h1 : 2 ^ d - 1 < 2 ^ d := by omega
  have h2 : 2 ^ d - 1 - b < 2 ^ d := by omega
  rw [Nat.testBit_ldiff, Nat.testBit_mul_pow_two_add x h1 i,
    Nat.testBit_mul_pow_two_add x h2 i]
  rcases Nat.lt_or_ge i d with hi | hi
  · rw [if_pos hi, if_pos hi, testBit_compl_sub d b i hb hi,
      Nat.testBit_two_pow_sub_one]
    simp [hi]
  · have hbi : b < 2 ^ i :=
      Nat.lt_of_lt_of_le hb (Nat.pow_le_pow_right (by omega) hi)
    rw [if_neg (by omega), if_neg (by omega), Nat.testBit_lt_two_pow hbi]
    simp

/-- Int.lor on a nonnegative left-shifted value and a bias below the
shifted-in block is addition. -/
theorem intLor_nonneg (n : Nat) (d : Nat) (b : Nat) (hb : b < 2 ^ d) :
    Int.lor ((n : Int) * 2 ^ d) (b : Int) = (n : Int) * 2 ^ d + b := by
  have h1 : ((n : Int) * 2 ^ d) = ((n * 2 ^ d : Nat) : Int) := by push_cast; ring
  rw [h1]
  have h2 : Int.lor ((n * 2 ^ d : Nat) : Int) ((b : Nat) : Int)
      = (((n * 2 ^ d) ||| b : Nat) : Int) := rfl
  rw [h2, Nat.mul_comm, lor_mul_pow_add d n b hb]
  push_cast; ring

/-- Int.lor on a negative left-shifted value and a bias below the
shifted-in block is addition, through the two complement encoding. -/
theorem intLor_negSucc (m : Nat) (d : Nat) (b : Nat) (hb : b < 2 ^ d) :
    Int.lor ((Int.negSucc m) * 2 ^ d) (b : Int)
      = (Int.negSucc m) * 2 ^ d + b := by
  have hcast : ((2 : Int)) ^ d = ((2 ^ d : Nat) : Int) := by push_cast; ring
  rw [hcast]
  have hp : 0 < 2 ^ d := Nat.pos_pow_of_pos d (by omega)
  have hA : (m + 1) * 2 ^ d = 2 ^ d * m + 2 ^ d := by ring
  have hK1 : 1 ≤ (m + 1) * 2 ^ d := Nat.mul_pos (Nat.succ_pos m) hp
  have hrep : (Int.negSucc m) * ((2 ^ d : Nat) : Int)
      = Int.negSucc ((m + 1) * 2 ^ d - 1) := by
    rw [Int.negSucc_eq, Int.negSucc_eq]
    have hmul : (-((m : Int) + 1)) * ((2 ^ d : Nat) : Int)
        = -(((m + 1) * 2 ^ d : Nat) : Int) := by push_cast; ring
    rw [hmul]
    generalize hKK : (m + 1) * 2 ^ d = K at hK1 ⊢
    omega
  rw [hrep]
  have h2 : Int.lor (Int.negSucc ((m + 1) * 2 ^ d - 1)) ((b : Nat) : Int)
      = Int.negSucc (Nat.ldiff ((m + 1) * 2 ^ d - 1) b) := rfl
  rw [h2]
  have h3 : (m + 1) * 2 ^ d - 1 = 2 ^ d * m + (2 ^ d - 1) := by omega
  rw [h3, ldiff_mul_pow_add d m b hb, Int.negSucc_eq, Int.negSucc_eq]
  generalize hAA : 2 ^ d * m = A
  generalize hPP : (2 : Nat) ^ d = P at hb ⊢
  omega

/-- Python right shift is floor division by the corresponding power of
    two. -/
theorem pyShr_eq_fdiv (v : Int) (k : Nat) : pyShr v k = Int.fdiv v (2 ^ k) := by
  have h1 : pyShr v k = v / ((2 ^ k : Nat) : Int) := by
    rw [pyShr, ← Int.shiftRight_eq, Int.shiftRight_eq_div_pow]
  rw [h1, Int.fdiv_eq_ediv _ (by positivity)]
  norm_num

/-- Combined form used by FXfamily.convert: for any integer, oring a bias
below `2 ^ d` into the value shifted left by `d` adds the bias. -/
theorem pyOr_shl_add (v : Int) (d b : Nat) (hb : b < 2 ^ d) :
    pyOr (pyShl v d) ((b : Nat) : Int) = v * 2 ^ d + b := by
  cases v with
  | ofNat n => exact intLor_nonneg n d b hb
  | negSucc n => exact intLor_negSucc n d b hb

/-!
Characterization of FXfamily.convert in the three regimes of the
fraction-bit difference.
-/

/-- Equal fraction-bit counts: convert is the identity. -/
theorem convert_eq_self (self other : FXfamily) (v : Int)
    (h : self.fraction_bits = other.fraction_bits) :
    FXfamily.convert self other v = v := by
  simp [FXfamily.convert, h]

/-- Increasing precision by `d ≥ 1` bits: the value is shifted left and
the rounding bias is `2 ^ (d - 1)` for strictly positive values and
`2 ^ (d - 1) - 1` for zero and negative values. -/
theorem convert_incr (self other : FXfamily) (v : Int) (d : Nat) (hd : 1 ≤ d)
    (h : self.fraction_bits = other.fraction_bits + d) :
    FXfamily.convert self other v
      = v * 2 ^ d + (if 0 < v then ((2 ^ (d - 1) : Nat) : Int)
                     else ((2 ^ (d - 1) - 1 : Nat) : Int)) := by
  have hbi : (self.fraction_bits : Int) - other.fraction_bits = (d : Int) := by
    rw [h]; push_cast; ring
  have hd0 : ¬ ((d : Int) = 0) := by omega
  have hdpos : (0 : Int) < d := by omega
  have h2d : 2 ^ d = 2 * 2 ^ (d - 1) := by
    conv_lhs => rw [show d = (d - 1) + 1 by omega]
    rw [Nat.pow_succ]; ring
  have hp1 : 0 < 2 ^ (d - 1) := Nat.pos_pow_of_pos _ (by omega)
  rw [FXfamily.convert]
  simp only [hbi, hd0, if_false, hdpos, if_true, Int.toNat_ofNat, gt_iff_lt]
  rcases lt_or_ge 0 v with hv | hv
  · have hbias : pyShl 1 (d - 1) = ((2 ^ (d - 1) : Nat) : Int) := by
      simp only [pyShl, one_mul]
      push_cast
      ring
    rw [if_pos hv, if_pos hv, hbias, pyOr_shl_add v d (2 ^ (d - 1)) (by omega)]
  · have hbias : pyShl 1 (d - 1) - 1 = ((2 ^ (d - 1) - 1 : Nat) : Int) := by
      simp only [pyShl, one_mul]
      push_cast [Nat.cast_sub (by omega : 1 ≤ 2 ^ (d - 1))]
      ring
    rw [if_neg (by omega), if_neg (by omega), hbias,
      pyOr_shl_add v d (2 ^ (d - 1) - 1) (by omega)]

/-- Decreasing precision by `d ≥ 1` bits: arithmetic right shift, i.e.
floor division by `2 ^ d`, with no rounding bias. -/
theorem convert_decr (self other : FXfamily) (v : Int) (d : Nat) (hd : 1 ≤ d)
    (h : other.fraction_bits = self.fraction_bits + d) :
    FXfamily.convert self other v = Int.fdiv v (2 ^ d) := by
  have hbi : (self.fraction_bits : Int) - other.fraction_bits = -(d : Int) := by
    rw [h]; push_cast; ring
  have hd0 : ¬ (-(d : Int) = 0) := by omega
  have hdneg : ¬ (-(d : Int) > 0) := by omega
  rw [FXfamily.convert]
  simp only [hbi, hd0, if_false, hdneg, neg_neg, Int.toNat_ofNat]
  exact pyShr_eq_fdiv v d

/-- Converting up from family A to a finer family B and back down to A
restores the scaled value exactly. -/
theorem convert_roundtrip (A B : FXfamily) (v : Int)
    (hle : A.fraction_bits ≤ B.fraction_bits) :
    FXfamily.convert A B (FXfamily.convert B A v) = v := by
  rcases Nat.eq_or_lt_of_le hle with heq | hlt
  · rw [convert_eq_self B A v heq.symm, convert_eq_self A B v heq]
  · have hd : 1 ≤ B.fraction_bits - A.fraction_bits := by omega
    have hB : B.fraction_bits = A.fraction_bits + (B.fraction_bits - A.fraction_bits) := by
      omega
    set d := B.fraction_bits - A.fraction_bits with hdd
    rw [convert_incr B A v d hd hB, convert_decr A B _ d hd hB]
    have hple : (0 : Int) < 2 ^ d := by positivity
    have h2d : 2 ^ d = 2 * 2 ^ (d - 1) := by
      conv_lhs => rw [show d = (d - 1) + 1 by omega]
      rw [Nat.pow_succ]; ring
    have hp1 : 0 < 2 ^ (d - 1) := Nat.pos_pow_of_pos _ (by omega)
    set b : Int := (if 0 < v then ((2 ^ (d - 1) : Nat) : Int)
                    else ((2 ^ (d - 1) - 1 : Nat) : Int)) with hbdef
    have hbn : ∀ c : Nat, c < 2 ^ d → ((c : Int) < 2 ^ d) := by
      intro c hc
      exact_mod_cast hc
    have hb0 : 0 ≤ b ∧ b < 2 ^ d := by
      constructor
      · rw [hbdef]; split <;> positivity
      · rw [hbdef]; split
        · exact hbn _ (by omega)
        · exact hbn _ (by omega)
    rw [Int.fdiv_eq_ediv _ (le_of_lt hple)]
    rw [show v * 2 ^ d + b = b + v * 2 ^ d by ring]
    rw [Int.add_mul_ediv_right b v (by omega : (2 : Int) ^ d ≠ 0)]
    rw [Int.ediv_eq_zero_of_lt hb0.1 hb0.2]
    ring

/-!
Characterization of the overflow validator and of the construction
paths, in terms of the acceptance range `inRange`.
-/

theorem pyShl_one (k : Nat) : pyShl 1 k = 2 ^ k := by
  simp [pyShl]

/-- The validator accepts exactly the scaled values in `inRange`. -/
theorem validate_ok_iff (f : FXfamily) (sv : Int) :
    f.validate sv = Except.ok () ↔ f.inRange sv := by
  cases f with
  | mk fb ib =>
    cases ib with
    | none => simp [FXfamily.validate, FXfamily.inRange]
    | some n_intbits =>
      simp only [FXfamily.validate, FXfamily.inRange, pyShl_one]
      by_cases h : sv ≥ 2 ^ (fb + n_intbits - 1) ∨ sv < -(2 ^ (fb + n_intbits - 1))
      · rw [if_pos h]
        simp only [reduceCtorEq, false_iff]
        omega
      · rw [if_neg h]
        simp only [true_iff]
        omega
  
/-- The validator rejects everything outside `inRange`, with the library
overflow error. -/
theorem validate_error (f : FXfamily) (sv : Int) (h : ¬ f.inRange sv) :
    f.validate sv = Except.error PyError.FXoverflowError := by
  cases f with
  | mk fb ib =>
    cases ib with
    | none => exact absurd trivial h
    | some n_intbits =>
      simp only [FXfamily.inRange] at h
      simp only [FXfamily.validate, pyShl_one]
      rw [if_pos (by omega)]

/-- Full behaviour of FXnum._rawbuild: success with the given fields on
the acceptance range, overflow error outside it. -/
theorem rawbuild_eq (fam : FXfamily) (sv : Int) :
    FXnum.rawbuild fam sv
      = if fam.inRange sv then Except.ok ⟨fam, sv⟩
        else Except.error PyError.FXoverflowError := by
  unfold FXnum.rawbuild
  by_cases h : fam.inRange sv
  · rw [if_pos h, (validate_ok_iff fam sv).2 h]
    rfl
  · rw [if_neg h, validate_error fam sv h]
    rfl

/-- The scaled-value constructor path coincides with _rawbuild. -/
theorem fromScaled_eq_rawbuild (fam : FXfamily) (sv : Int) :
    FXnum.fromScaled fam sv = FXnum.rawbuild fam sv := rfl

/-- The integer constructor path is _rawbuild on `val * scale`. -/
theorem fromInt_eq_rawbuild (val : Int) (fam : FXfamily) :
    FXnum.fromInt val fam = FXnum.rawbuild fam (val * fam.scale) := rfl

/-- The cross-family constructor path is _rawbuild on the converted
scaled value. -/
theorem fromFX_eq_rawbuild (x : FXnum) (fam : FXfamily) :
    FXnum.fromFX x fam = FXnum.rawbuild fam (fam.convert x.family x.scaledval) := rfl

/-- Successful _rawbuild yields exactly the requested fields, and those
fields lie in the acceptance range. -/
theorem rawbuild_ok_inRange {fam : FXfamily} {sv : Int} {n : FXnum}
    (h : FXnum.rawbuild fam sv = Except.ok n) :
    n.family = fam ∧ n.scaledval = sv ∧ fam.inRange sv := by
  rw [rawbuild_eq] at h
  split at h
  · cases h
    exact ⟨rfl, rfl, by assumption⟩
  · cases h

/-- Lemma: unbounded families accept every scaled value. -/
theorem inRange_of_none {f : FXfamily} (h : f.integer_bits = none) (sv : Int) :
    f.inRange sv := by
  cases f with
  | mk fb ib => cases h; trivial

/-- Lemma: the roundup field is half the scale field. -/
theorem roundup_eq_scale_div_two (f : FXfamily) (h : 1 ≤ f.fraction_bits) :
    f.roundup = f.scale / 2 := by
  rw [FXfamily.roundup, FXfamily.scale, pyShl_one, pyShl_one]
  conv_rhs => rw [show f.fraction_bits = (f.fraction_bits - 1) + 1 by omega]
  rw [pow_succ, Int.mul_ediv_cancel _ (by norm_num)]

/-- C5: constructing a number whose scaled value is one below the
overflow threshold succeeds; constructing one at the threshold raises
FXoverflowError. -/
theorem overflow_boundary (fb ib : Nat) (hfb : 1 ≤ fb) :
    FXnum.fromScaled ⟨fb, some ib⟩ (2 ^ (fb + ib - 1) - 1)
      = Except.ok ⟨⟨fb, some ib⟩, 2 ^ (fb + ib - 1) - 1⟩ ∧
    FXnum.fromScaled ⟨fb, some ib⟩ (2 ^ (fb + ib - 1))
      = Except.error PyError.FXoverflowError := by
  have hp : (0 : Int) < 2 ^ (fb + ib - 1) := by positivity
  have hin : FXfamily.inRange ⟨fb, some ib⟩ (2 ^ (fb + ib - 1) - 1) := by
    show -((2 : Int) ^ (fb + ib - 1)) ≤ 2 ^ (fb + ib - 1) - 1 ∧
      (2 : Int) ^ (fb + ib - 1) - 1 < 2 ^ (fb + ib - 1)
    exact ⟨by omega, by omega⟩
  have hout : ¬ FXfamily.inRange ⟨fb, some ib⟩ (2 ^ (fb + ib - 1)) := by
    intro hc
    have h2 : ((2 : Int) ^ (fb + ib - 1)) < 2 ^ (fb + ib - 1) := hc.2
    omega
  constructor
  · rw [fromScaled_eq_rawbuild, rawbuild_eq, if_pos hin]
  · rw [fromScaled_eq_rawbuild, rawbuild_eq, if_neg hout]

theorem overflow_boundary_witness :
    1 ≤ 3 ∧
    (FXnum.fromScaled ⟨3, some 2⟩ (2 ^ (3 + 2 - 1) - 1)
       = Except.ok ⟨⟨3, some 2⟩, 2 ^ (3 + 2 - 1) - 1⟩ ∧
     FXnum.fromScaled ⟨3, some 2⟩ (2 ^ (3 + 2 - 1))
       = Except.error PyError.FXoverflowError) :=
  ⟨by omega, overflow_boundary 3 2 (by omega)⟩

/-- C10: comparing a family against an object lacking the attributes
raises NameError from the unbound lowercase names in both fallbacks. -/
theorem family_cmp_noattrs_nameerror (f : FXfamily) :
    FXfamily.eqOp f PyOperand.noAttrs = Except.error PyError.NameError ∧
    FXfamily.neOp f PyOperand.noAttrs = Except.error PyError.NameError := by
  constructor <;> rfl

/-- C6: division by a zero-valued same-family operand raises the host
ZeroDivisionError; otherwise any successful division carries the scaled
value `(a.scaledval * scale + scale / 2) // b.scaledval`, and on an
unbounded family with nonzero divisor it succeeds with exactly that
value. -/
theorem division_semantics (a b : FXnum) (hfam : a.family = b.family)
    (hwf : 1 ≤ a.family.fraction_bits) :
    (b.scaledval = 0 →
        FXnum.truediv a b = Except.error PyError.ZeroDivisionError) ∧
    (∀ y, FXnum.truediv a b = Except.ok y →
        y.family = a.family ∧
        y.scaledval
          = Int.fdiv (a.scaledval * a.family.scale + a.family.scale / 2)
              b.scaledval) ∧
    (a.family.integer_bits = none → b.scaledval ≠ 0 →
        FXnum.truediv a b
          = Except.ok ⟨a.family,
              Int.fdiv (a.scaledval * a.family.scale + a.family.scale / 2)
                b.scaledval⟩) := by
  have hr := roundup_eq_scale_div_two a.family hwf
  refine ⟨fun h0 => ?_, fun y hy => ?_, fun hnone hne => ?_⟩
  · rw [FXnum.truediv, if_pos hfam, if_pos h0]
  · rw [FXnum.truediv, if_pos hfam] at hy
    by_cases h0 : b.scaledval = 0
    · rw [if_pos h0] at hy; cases hy
    · rw [if_neg h0] at hy
      obtain ⟨h1, h2, _⟩ := rawbuild_ok_inRange hy
      exact ⟨h1, by rw [h2, pyFloorDiv, hr]⟩
  · rw [FXnum.truediv, if_pos hfam, if_neg hne, rawbuild_eq,
      if_pos (inRange_of_none hnone _), pyFloorDiv, hr]

theorem division_semantics_witness :
    ((⟨⟨2, none⟩, 3⟩ : FXnum).scaledval = 0 →
        FXnum.truediv ⟨⟨2, none⟩, 7⟩ ⟨⟨2, none⟩, 3⟩
          = Except.error PyError.ZeroDivisionError) ∧
    (∀ y, FXnum.truediv ⟨⟨2, none⟩, 7⟩ ⟨⟨2, none⟩, 3⟩ = Except.ok y →
        y.family = (⟨⟨2, none⟩, 7⟩ : FXnum).family ∧
        y.scaledval
          = Int.fdiv ((⟨⟨2, none⟩, 7⟩ : FXnum).scaledval
                * (⟨⟨2, none⟩, 7⟩ : FXnum).family.scale
                + (⟨⟨2, none⟩, 7⟩ : FXnum).family.scale / 2)
              (⟨⟨2, none⟩, 3⟩ : FXnum).scaledval) ∧
    ((⟨⟨2, none⟩, 7⟩ : FXnum).family.integer_bits = none →
        (⟨⟨2, none⟩, 3⟩ : FXnum).scaledval ≠ 0 →
        FXnum.truediv ⟨⟨2, none⟩, 7⟩ ⟨⟨2, none⟩, 3⟩
          = Except.ok ⟨(⟨⟨2, none⟩, 7⟩ : FXnum).family,
              Int.fdiv ((⟨⟨2, none⟩, 7⟩ : FXnum).scaledval
                  * (⟨⟨2, none⟩, 7⟩ : FXnum).family.scale
                  + (⟨⟨2, none⟩, 7⟩ : FXnum).family.scale / 2)
                (⟨⟨2, none⟩, 3⟩ : FXnum).scaledval⟩) :=
  division_semantics ⟨⟨2, none⟩, 7⟩ ⟨⟨2, none⟩, 3⟩ rfl (by decide)

/-- Lemma: dividing `sv * scale + r` by the scale floors away any
`0 ≤ r < scale` remainder. -/
theorem fdiv_mul_add_small (sv r p : Int) (hp : 0 < p) (h0 : 0 ≤ r) (hr : r < p) :
    Int.fdiv (sv * p + r) p = sv := by
  rw [Int.fdiv_eq_ediv _ (le_of_lt hp),
    show sv * p + r = r + sv * p by ring,
    Int.add_mul_ediv_right r sv (by omega),
    Int.ediv_eq_zero_of_lt h0 hr]
  ring

/-- C8: adding the zero constant of the family returns the number
unchanged, and multiplying by the unity constant returns the number
unchanged. -/
theorem identity_elements (fam : FXfamily) (x z u : FXnum)
    (hx : x.family = fam) (hv : fam.inRange x.scaledval)
    (hz : fam.zero = Except.ok z) (hu : fam.unity = Except.ok u)
    (hwf : 1 ≤ fam.fraction_bits) :
    FXnum.add x z = Except.ok x ∧ FXnum.mul x u = Except.ok x := by
  rw [FXfamily.zero, fromInt_eq_rawbuild] at hz
  rw [FXfamily.unity, fromInt_eq_rawbuild] at hu
  obtain ⟨hzf, hzs, _⟩ := rawbuild_ok_inRange hz
  obtain ⟨huf, hus, _⟩ := rawbuild_ok_inRange hu
  rw [zero_mul] at hzs
  rw [one_mul] at hus
  have hscale : fam.scale = 2 ^ fam.fraction_bits := by
    rw [FXfamily.scale, pyShl_one]
  have hround : fam.roundup = 2 ^ (fam.fraction_bits - 1) := by
    rw [FXfamily.roundup, pyShl_one]
  have hsp : (0 : Int) < 2 ^ fam.fraction_bits := by positivity
  have h2 : (2 : Int) ^ fam.fraction_bits = 2 * 2 ^ (fam.fraction_bits - 1) := by
    conv_lhs => rw [show fam.fraction_bits = (fam.fraction_bits - 1) + 1 by omega]
    rw [pow_succ]; ring
  have hrp : (0 : Int) < 2 ^ (fam.fraction_bits - 1) := by positivity
  have hdiv : pyFloorDiv (x.scaledval * fam.scale + fam.roundup) fam.scale
      = x.scaledval := by
    rw [pyFloorDiv, hscale, hround]
    exact fdiv_mul_add_small _ _ _ hsp (le_of_lt hrp) (by omega)
  constructor
  · rw [FXnum.add, if_pos (by rw [hx, hzf]), hzs, add_zero, rawbuild_eq, hx,
      if_pos hv, ← hx]
  · rw [FXnum.mul, if_pos (by rw [hx, huf]), hus, hx, hdiv, rawbuild_eq,
      if_pos hv, ← hx]

theorem identity_elements_witness :
    FXnum.add ⟨⟨2, some 3⟩, 5⟩ ⟨⟨2, some 3⟩, 0⟩ = Except.ok ⟨⟨2, some 3⟩, 5⟩ ∧
    FXnum.mul ⟨⟨2, some 3⟩, 5⟩ ⟨⟨2, some 3⟩, 4⟩ = Except.ok ⟨⟨2, some 3⟩, 5⟩ :=
  identity_elements ⟨2, some 3⟩ ⟨⟨2, some 3⟩, 5⟩ ⟨⟨2, some 3⟩, 0⟩ ⟨⟨2, some 3⟩, 4⟩
    rfl (by decide) rfl rfl (by decide)

/-- C2 (amended): every successful construction path and arithmetic
operation yields a number whose scaled value lies in the asymmetric
range `-2^(fb+ib-1) ≤ sv < 2^(fb+ib-1)` of its family, and the
validator raises FXoverflowError on every candidate outside that range. -/
theorem range_invariant :
    (∀ f sv n, FXnum.fromScaled f sv = Except.ok n →
        n.family.inRange n.scaledval) ∧
    (∀ v f n, FXnum.fromInt v f = Except.ok n →
        n.family.inRange n.scaledval) ∧
    (∀ x f n, FXnum.fromFX x f = Except.ok n →
        n.family.inRange n.scaledval) ∧
    (∀ f v ov n, FXfamily.from2c f v ov = Except.ok n →
        n.family.inRange n.scaledval) ∧
    (∀ a b n, FXnum.add a b = Except.ok n → n.family.inRange n.scaledval) ∧
    (∀ a b n, FXnum.sub a b = Except.ok n → n.family.inRange n.scaledval) ∧
    (∀ a b n, FXnum.mul a b = Except.ok n → n.family.inRange n.scaledval) ∧
    (∀ a b n, FXnum.truediv a b = Except.ok n → n.family.inRange n.scaledval) ∧
    (∀ a n, FXnum.neg a = Except.ok n → n.family.inRange n.scaledval) ∧
    (∀ a k n, FXnum.lshift a k = Except.ok n → n.family.inRange n.scaledval) ∧
    (∀ a k n, FXnum.rshift a k = Except.ok n → n.family.inRange n.scaledval) ∧
    (∀ (f : FXfamily) (sv : Int), ¬ f.inRange sv →
        f.validate sv = Except.error PyError.FXoverflowError) := by
  have hraw : ∀ fam sv n, FXnum.rawbuild fam sv = Except.ok n →
      n.family.inRange n.scaledval := by
    intro fam sv n h
    obtain ⟨h1, h2, h3⟩ := rawbuild_ok_inRange h
    rw [h1, h2]
    exact h3
  refine ⟨?_, ?_, ?_, ?_, ?_, ?_, ?_, ?_, ?_, ?_, ?_, ?_⟩
  · intro f sv n h
    exact hraw _ _ _ (fromScaled_eq_rawbuild f sv ▸ h)
  · intro v f n h
    exact hraw _ _ _ (fromInt_eq_rawbuild v f ▸ h)
  · intro x f n h
    exact hraw _ _ _ (fromFX_eq_rawbuild x f ▸ h)
  · intro f v ov n h
    simp only [FXfamily.from2c] at h
    split at h
    · cases h
    · split at h
      · cases h
      · exact hraw _ _ _ h
  · intro a b n h
    rw [FXnum.add] at h
    split at h
    · exact hraw _ _ _ h
    · cases h
  · intro a b n h
    rw [FXnum.sub] at h
    split at h
    · exact hraw _ _ _ h
    · cases h
  · intro a b n h
    rw [FXnum.mul] at h
    split at h
    · exact hraw _ _ _ h
    · cases h
  · intro a b n h
    rw [FXnum.truediv] at h
    split at h
    · split at h
      · cases h
      · exact hraw _ _ _ h
    · cases h
  · intro a n h
    exact hraw _ _ _ h
  · intro a k n h
    exact hraw _ _ _ h
  · intro a k n h
    exact hraw _ _ _ h
  · intro f sv h
    exact validate_error f sv h

theorem range_invariant_witness :
    FXfamily.inRange
      ((⟨⟨2, some 2⟩, 3⟩ : FXnum)).family
      ((⟨⟨2, some 2⟩, 3⟩ : FXnum)).scaledval :=
  range_invariant.1 ⟨2, some 2⟩ 3 ⟨⟨2, some 2⟩, 3⟩ rfl

/-- C2 as stated is false: the public scaled-value constructor accepts
`-8` in a family with 2 fraction and 2 integer bits, producing a number
with `|scaledval| = 2^(2+2-1)`, which violates the claimed strict bound
`|scaledval| < 2^(fractionBits+integerBits-1)`. -/
theorem range_invariant_cex :
    FXnum.fromScaled ⟨2, some 2⟩ (-8) = Except.ok ⟨⟨2, some 2⟩, -8⟩ ∧
    ¬ (|(-8 : Int)| < 2 ^ (2 + 2 - 1)) := by
  constructor
  · rfl
  · decide

/-- C1 as stated is false at input value 0: the claim gives every
non-negative value the bias `2 ^ (d-1)`, but converting the scaled value
0 up by one bit yields 0, not `(0 << 1) | 2 ^ 0 = 1`. -/
theorem convert_semantics_cex :
    FXfamily.convert ⟨2, none⟩ ⟨1, none⟩ 0
      ≠ pyOr (pyShl 0 1) (pyShl 1 (1 - 1)) := by
  decide

/-- C1 (amended): family-to-family conversion leaves the value unchanged
on equal fraction-bit counts; when increasing precision by `d ≥ 1` bits
it left-shifts and adds the bias `2 ^ (d-1)` for strictly positive
values and `2 ^ (d-1) - 1` for zero and negative values; when decreasing
precision it arithmetically right-shifts (floor division, no rounding). -/
theorem convert_semantics (self other : FXfamily) (v : Int) :
    (self.fraction_bits = other.fraction_bits →
        FXfamily.convert self other v = v) ∧
    (∀ d, 1 ≤ d → self.fraction_bits = other.fraction_bits + d →
        FXfamily.convert self other v
          = v * 2 ^ d + (if 0 < v then 2 ^ (d - 1) else 2 ^ (d - 1) - 1)) ∧
    (∀ d, 1 ≤ d → other.fraction_bits = self.fraction_bits + d →
        FXfamily.convert self other v = Int.fdiv v (2 ^ d)) := by
  refine ⟨fun h => convert_eq_self self other v h,
    fun d hd h => ?_,
    fun d hd h => convert_decr self other v d hd h⟩
  rw [convert_incr self other v d hd h]
  congr 1
  have h1 : 1 ≤ 2 ^ (d - 1) := Nat.one_le_two_pow
  split
  · push_cast
    ring
  · push_cast [Nat.cast_sub h1]
    ring

theorem convert_semantics_witness :
    FXfamily.convert ⟨3, none⟩ ⟨1, none⟩ (-1)
      = (-1) * 2 ^ 2 + (if (0 : Int) < -1 then 2 ^ (2 - 1) else 2 ^ (2 - 1) - 1) :=
  (convert_semantics ⟨3, none⟩ ⟨1, none⟩ (-1)).2.1 2 (by omega) rfl

/-- C4 as stated is false for the right shift: shifting the scaled value
1 right by one bit in a 1-fraction-bit family yields the value 0, not
half of the original value 1/2. -/
theorem shift_semantics_cex :
    FXnum.rshift ⟨⟨1, none⟩, 1⟩ 1 = Except.ok ⟨⟨1, none⟩, 0⟩ ∧
    FXnum.value ⟨⟨1, none⟩, 0⟩ ≠ FXnum.value ⟨⟨1, none⟩, 1⟩ / 2 ^ 1 := by
  constructor
  · rfl
  · rw [FXnum.value, FXnum.value]
    norm_num

/-- C4 (amended): a successful left shift multiplies the value exactly
by `2 ^ k`; a successful right shift floors the scaled value
(arithmetic shift), which divides the value exactly by `2 ^ k` only
when the low `k` bits of the scaled value are zero. -/
theorem shift_semantics (x : FXnum) (k : Nat) :
    (∀ y, FXnum.lshift x k = Except.ok y →
        y.family = x.family ∧ FXnum.value y = FXnum.value x * 2 ^ k) ∧
    (∀ y, FXnum.rshift x k = Except.ok y →
        y.family = x.family ∧
        y.scaledval = Int.fdiv x.scaledval (2 ^ k) ∧
        ((2 ^ k : Int) ∣ x.scaledval →
            FXnum.value y = FXnum.value x / 2 ^ k)) := by
  constructor
  · intro y hy
    rw [FXnum.lshift] at hy
    obtain ⟨h1, h2, _⟩ := rawbuild_ok_inRange hy
    refine ⟨h1, ?_⟩
    rw [FXnum.value, FXnum.value, h1, h2, pyShl]
    push_cast
    ring
  · intro y hy
    rw [FXnum.rshift] at hy
    obtain ⟨h1, h2, _⟩ := rawbuild_ok_inRange hy
    rw [pyShr_eq_fdiv] at h2
    refine ⟨h1, h2, fun hdvd => ?_⟩
    obtain ⟨c, hc⟩ := hdvd
    have hk : (2 : Int) ^ k ≠ 0 := by positivity
    rw [FXnum.value, FXnum.value, h1, h2, hc,
      Int.mul_fdiv_cancel_left c hk]
    push_cast
    field_simp
    ring

theorem shift_semantics_witness :
    ((⟨⟨2, none⟩, -6⟩ : FXnum).family = (⟨⟨2, none⟩, -3⟩ : FXnum).family ∧
      FXnum.value ⟨⟨2, none⟩, -6⟩ = FXnum.value ⟨⟨2, none⟩, -3⟩ * 2 ^ 1) ∧
    ((⟨⟨2, none⟩, -2⟩ : FXnum).family = (⟨⟨2, none⟩, -3⟩ : FXnum).family ∧
      (⟨⟨2, none⟩, -2⟩ : FXnum).scaledval
        = Int.fdiv (⟨⟨2, none⟩, -3⟩ : FXnum).scaledval (2 ^ 1) ∧
      ((2 ^ 1 : Int) ∣ (⟨⟨2, none⟩, -3⟩ : FXnum).scaledval →
          FXnum.value ⟨⟨2, none⟩, -2⟩ = FXnum.value ⟨⟨2, none⟩, -3⟩ / 2 ^ 1)) :=
  ⟨(shift_semantics ⟨⟨2, none⟩, -3⟩ 1).1 ⟨⟨2, none⟩, -6⟩ rfl,
   (shift_semantics ⟨⟨2, none⟩, -3⟩ 1).2 ⟨⟨2, none⟩, -2⟩ rfl⟩

/-- C7: rescaling a number from family A into a finer (or equal) family
B and back into A restores the original scaled value exactly, whenever
both conversions pass validation. -/
theorem rescale_roundtrip (A B : FXfamily) (x y z : FXnum)
    (hfam : x.family = A) (hle : A.fraction_bits ≤ B.fraction_bits)
    (hy : FXnum.fromFX x B = Except.ok y)
    (hz : FXnum.fromFX y A = Except.ok z) :
    z.scaledval = x.scaledval := by
  rw [fromFX_eq_rawbuild] at hy hz
  obtain ⟨hyf, hysv, _⟩ := rawbuild_ok_inRange hy
  obtain ⟨_, hzsv, _⟩ := rawbuild_ok_inRange hz
  rw [hzsv, hysv, hyf, hfam]
  exact convert_roundtrip A B x.scaledval hle

theorem rescale_roundtrip_witness :
    FXnum.fromFX ⟨⟨1, none⟩, 0⟩ ⟨3, none⟩ = Except.ok ⟨⟨3, none⟩, 1⟩ ∧
    FXnum.fromFX ⟨⟨3, none⟩, 1⟩ ⟨1, none⟩ = Except.ok ⟨⟨1, none⟩, 0⟩ ∧
    (⟨⟨1, none⟩, 0⟩ : FXnum).scaledval = (⟨⟨1, none⟩, 0⟩ : FXnum).scaledval :=
  ⟨by rfl, by rfl,
   rescale_roundtrip ⟨1, none⟩ ⟨3, none⟩ ⟨⟨1, none⟩, 0⟩ ⟨⟨3, none⟩, 1⟩
     ⟨⟨1, none⟩, 0⟩ rfl (by decide) (by rfl) (by rfl)⟩

/-- Lemma: the augment loop computes the binary length, i.e.
`floor(log2 nb) + 1` on positive input. -/
theorem augmentLoop_eq_log2 : ∀ c, 1 ≤ c → FXfamily.augmentLoop c = Nat.log2 c + 1 := by
  intro c
  induction c using Nat.strong_induction_on with
  | _ c ih =>
    intro hc
    match c, hc with
    | n + 1, _ =>
      rw [FXfamily.augmentLoop]
      by_cases h2 : n + 1 ≥ 2
      · rw [ih ((n + 1) / 2) (by omega) (by omega)]
        conv_rhs => rw [Nat.log2]
        rw [if_pos h2]
      · have h1 : n = 0 := by omega
        subst h1
        have ha : FXfamily.augmentLoop (1 / 2) = 0 := by
          norm_num
          rw [FXfamily.augmentLoop]
        have hl : Nat.log2 1 = 0 := by
          rw [Nat.log2]
          norm_num
        rw [ha, hl]

/-- C3 as stated is false at opCount = 1: the loop counts the binary
length of the operand, so augment(1) adds `4 + 1 = 5` bits, while the
claimed formula `4 + ceil(log2 1) = 4` adds four. -/
theorem augment_semantics_cex :
    (FXfamily.augment ⟨64, none⟩ (some 1)).fraction_bits
      ≠ 64 + (4 + Nat.clog 2 1) := by
  have h1 : Nat.clog 2 1 = 0 := Nat.clog_one_right 2
  have ha : FXfamily.augmentLoop 1 = 1 := by
    rw [FXfamily.augmentLoop]
    norm_num
    rw [FXfamily.augmentLoop]
  have h2 : (FXfamily.augment ⟨64, none⟩ (some 1)).fraction_bits = 69 := by
    simp [FXfamily.augment, ha]
  omega

/-- C3 (amended): for opCount ≥ 1, augment returns a family with
`4 + (floor(log2 opCount) + 1)` additional fraction bits (i.e. four plus
the binary length of opCount, which is `4 + ceil(log2 opCount)` except
at exact powers of two where one more bit is added); when opCount is
absent it defaults to the fraction-bit count of the family. -/
theorem augment_semantics (f : FXfamily) (c : Nat) (hc : 1 ≤ c) :
    (FXfamily.augment f (some c)).fraction_bits
        = f.fraction_bits + (4 + (Nat.log2 c + 1)) ∧
    FXfamily.augment f none = FXfamily.augment f (some f.fraction_bits) := by
  constructor
  · simp [FXfamily.augment, augmentLoop_eq_log2 c hc]
  · rfl

theorem augment_semantics_witness :
    (FXfamily.augment ⟨64, none⟩ (some 3)).fraction_bits
        = 64 + (4 + (Nat.log2 3 + 1)) ∧
    FXfamily.augment ⟨64, none⟩ none = FXfamily.augment ⟨64, none⟩ (some 64) :=
  augment_semantics ⟨64, none⟩ 3 (by omega)

/-- C9 as stated is false when an integer-bit override exceeds the
family capacity: rawBits 30 with override 4 on a (2,1) family is inside
the claimed two complement domain `[0, 2^(2+4))` and below
`2^(2+4-1)`, so the claim promises a number with scaled value 30, but
the final validator of the (2,1) family raises FXoverflowError. -/
theorem from2c_semantics_cex :
    (0 : Int) ≤ 30 ∧ (30 : Int) < 2 ^ (2 + 4) ∧ (30 : Int) < 2 ^ (2 + 4 - 1) ∧
    FXfamily.from2c ⟨2, some 1⟩ 30 (some 4)
      = Except.error PyError.FXoverflowError := by
  refine ⟨by norm_num, by norm_num, by norm_num, ?_⟩
  rfl

/-- C9 (amended): with no known integer-bit count from2c raises
FXfamilyError; with an effective count `ib`, rawBits outside
`[0, 2^(fb+ib))` raises FXdomainError; any successful decode carries the
claimed scaled value (rawBits, or rawBits minus `2^(fb+ib)` from
`2^(fb+ib-1)` upward); and the decode is guaranteed to succeed when the
family is unbounded or its configured integer bits are at least the
effective count — otherwise the final overflow validation may reject. -/
theorem from2c_semantics (f : FXfamily) (n : Int) (ov : Option Nat)
    (hwf : 1 ≤ f.fraction_bits) :
    (f.effIntBits ov = none →
        FXfamily.from2c f n ov = Except.error PyError.FXfamilyError) ∧
    (∀ ib, f.effIntBits ov = some ib →
      ((n < 0 ∨ 2 ^ (f.fraction_bits + ib) ≤ n) →
          FXfamily.from2c f n ov = Except.error PyError.FXdomainError) ∧
      (0 ≤ n → n < 2 ^ (f.fraction_bits + ib) →
        (∀ y, FXfamily.from2c f n ov = Except.ok y →
            y.family = f ∧
            y.scaledval = (if n < 2 ^ (f.fraction_bits + ib - 1) then n
                           else n - 2 ^ (f.fraction_bits + ib))) ∧
        ((f.integer_bits = none ∨ (∃ j, f.integer_bits = some j ∧ ib ≤ j)) →
            FXfamily.from2c f n ov
              = Except.ok ⟨f, if n < 2 ^ (f.fraction_bits + ib - 1) then n
                              else n - 2 ^ (f.fraction_bits + ib)⟩))) := by
  refine ⟨fun h0 => ?_, fun ib hib => ?_⟩
  · simp only [FXfamily.from2c, h0]
  · have hm : pyShl f.scale ib = (2 : Int) ^ (f.fraction_bits + ib) := by
      simp only [pyShl, FXfamily.scale, pyShl_one]
      rw [pow_add]
      ring
    have hM2 : (2 : Int) ^ (f.fraction_bits + ib)
        = 2 ^ (f.fraction_bits + ib - 1) * 2 := by
      conv_lhs => rw [show f.fraction_bits + ib = (f.fraction_bits + ib - 1) + 1 by omega]
      rw [pow_succ]
    have hhalf : pyShr ((2 : Int) ^ (f.fraction_bits + ib)) 1
        = (2 : Int) ^ (f.fraction_bits + ib - 1) := by
      rw [pyShr_eq_fdiv, pow_one, hM2, Int.mul_fdiv_cancel _ (by norm_num)]
    have hp1 : (0 : Int) < 2 ^ (f.fraction_bits + ib - 1) := by positivity
    refine ⟨fun hdom => ?_, fun hn0 hnm => ⟨fun y hy => ?_, fun hbound => ?_⟩⟩
    · simp only [FXfamily.from2c, hib, hm, hhalf]
      rw [if_pos (by omega)]
    · simp only [FXfamily.from2c, hib, hm, hhalf] at hy
      rw [if_neg (by omega)] at hy
      obtain ⟨h1, h2, _⟩ := rawbuild_ok_inRange hy
      exact ⟨h1, h2⟩
    · simp only [FXfamily.from2c, hib, hm, hhalf]
      rw [if_neg (by omega), rawbuild_eq, if_pos ?hin]
      case hin =>
        obtain ⟨fb, fib⟩ := f
        rcases hbound with hnone | ⟨j, hj, hle⟩
        · cases hnone
          trivial
        · cases hj
          dsimp only at hnm hn0 hp1 hM2 ⊢
          have hT : (2 : Int) ^ (fb + ib - 1) ≤ 2 ^ (fb + j - 1) := by
            apply pow_le_pow_right₀ (by norm_num)
            omega
          show -((2 : Int) ^ (fb + j - 1))
              ≤ (if n < 2 ^ (fb + ib - 1) then n else n - 2 ^ (fb + ib)) ∧
            (if n < 2 ^ (fb + ib - 1) then n else n - 2 ^ (fb + ib))
              < 2 ^ (fb + j - 1)
          rw [hM2] at hnm
          split <;> constructor <;> omega

theorem from2c_semantics_witness :
    FXfamily.from2c ⟨2, some 3⟩ 30 none
      = Except.ok ⟨⟨2, some 3⟩,
          if (30 : Int) < 2 ^ (2 + 3 - 1) then 30 else 30 - 2 ^ (2 + 3)⟩ :=
  (((from2c_semantics ⟨2, some 3⟩ 30 none (by decide)).2 3 rfl).2 (by decide)
      (by decide)).2 (Or.inr ⟨3, rfl, le_refl 3⟩)
